import Mathlib

/-!
Verification of the Neural Thompson Sampling agent
(`src/NeuralThompsonSampling/agent.py`).

The Python source is shallowly embedded over the real numbers:

* `NNWeights` is the ordered family of weight matrices of `NeuralNetwork`
  (layer 1 of shape `d × m`, the `L - 2` middle layers of shape `m × m`,
  and the final layer, a single column of length `m`).  The embedding
  assumes `L ≥ 2`, the shape the code's layer loop produces for every
  valid configuration.
* `forwardRow` is `NeuralNetwork.forward` on one context row;
  `forwardT` adds the 1-D-to-batch promotion performed by `forward`.
* `initWeights` is the antisymmetric initialisation of
  `NeuralNetwork.__init__`: the raw `np.random.randn` draws are modelled
  as an arbitrary `Draws` value (one block per distinct call, exactly as
  the code draws each block once and reuses it), and the placement and
  `sqrt(4/m)`, `sqrt(2/m)` scalings are reproduced literally.
* `gradW` is `NeuralNetwork.GetGrad`: the hand-derived backward pass of
  this fixed ReLU architecture (`torch.autograd` semantics, with the
  ReLU derivative taken to be `0` at `0`, as in PyTorch).
* `AgentState` carries every field of `NeuralAgent`; randomness is
  explicit: `gauss` is the stream of standard normal draws of the
  agent's seeded `random.Random` instance and `perm` the stream of
  shuffles of the seeded global numpy generator, both supplied at
  construction through a `RandomSource` (all of the code's random
  generators are seeded from `random_seed`, so a `RandomSource` is a
  function of the seed).
* `actionE` / `updateE` are `NeuralAgent.Action` / `NeuralAgent.Update`.
  Python exceptions are modelled by `Except PyError`: an out-of-range
  write into the fixed-length history arrays is `indexError`,
  `t // None` is `typeError`, and `% 0` / `// 0` are
  `zeroDivisionError`; `np.argmax` of an empty array is `valueError`.
  The source has no other failure modes: in particular it defines no
  `SequenceError` and no `ConfigurationError`.
* line 201, `self.U = self.U + grad_parameter.dot(grad_parameter.transpose()) / self.m`,
  is embedded by `npDotUpdate`: `grad_parameter` is a 1-D array
  (`np.concatenate` of flattened gradients), `.transpose()` on a 1-D
  array is the identity, `.dot` of two 1-D arrays is their inner
  product, and adding the resulting scalar to the matrix `self.U`
  broadcasts it to every entry.
-/

noncomputable section

namespace BlueBandits

/-- `torch.nn.ReLU`. -/
def relu (x : ℝ) : ℝ := max x 0

/-- Derivative used by `torch.autograd` for `ReLU` (`0` at `0`). -/
def reluDeriv (x : ℝ) : ℝ := if 0 < x then 1 else 0

/-- Pointwise ReLU on a hidden vector. -/
def reluVec {n : ℕ} (v : Fin n → ℝ) : Fin n → ℝ := fun i => relu (v i)

/-- `np.matmul` of a row vector with a matrix (`x @ W`). -/
def vmatmul {a b : ℕ} (x : Fin a → ℝ) (W : Matrix (Fin a) (Fin b) ℝ) : Fin b → ℝ :=
  fun j => ∑ i, x i * W i j

/-- The ordered weight matrices `W1, W2, …, WL` of `NeuralNetwork`
(`self.W`): layer 1 is `d × m`, layers `2 … L-1` are `m × m`, and layer
`L` is the single column `WL` of length `m`. -/
structure NNWeights (d L m : ℕ) where
  W1 : Matrix (Fin d) (Fin m) ℝ
  Wmid : Fin (L - 2) → Matrix (Fin m) (Fin m) ℝ
  WL : Fin m → ℝ

/-- The middle layers of `NeuralNetwork.forward`: repeatedly multiply by
`W2 … W(L-1)`, applying ReLU after each (these are never the last
layer). -/
def midsFwd {d L m : ℕ} (w : NNWeights d L m) :
    List (Fin (L - 2)) → (Fin m → ℝ) → (Fin m → ℝ)
  | [], h => h
  | i :: rest, h => midsFwd w rest (reluVec (vmatmul h (w.Wmid i)))

/-- The last hidden layer of `NeuralNetwork.forward` on a single row:
`relu(x @ W1)` pushed through all middle layers. -/
def hiddenOut {d L m : ℕ} (w : NNWeights d L m) (x : Fin d → ℝ) : Fin m → ℝ :=
  midsFwd w (List.finRange (L - 2)) (reluVec (vmatmul x w.W1))

/-- `NeuralNetwork.forward` on a single context row: the scalar
`(h @ WL) * np.sqrt(m)`. -/
def forwardRow {d L m : ℕ} (w : NNWeights d L m) (x : Fin d → ℝ) : ℝ :=
  (∑ j, hiddenOut w x j * w.WL j) * Real.sqrt m

/-- An input tensor to `NeuralNetwork.forward`: either a 1-D context
vector of length `d` or a 2-D batch whose rows have length `d` (the
column count `d` is enforced by the `assert` in the source and here by
the type). -/
inductive TensorInput (d : ℕ) where
  | vec : (Fin d → ℝ) → TensorInput d
  | mat : List (Fin d → ℝ) → TensorInput d

/-- Lines 73-74 of the source: `if len(x.shape) == 1: x = x[None, :]`. -/
def promote {d : ℕ} : TensorInput d → List (Fin d → ℝ)
  | .vec x => [x]
  | .mat rows => rows

/-- `NeuralNetwork.forward` on a tensor: the result has one row per
batch element, and each row has the single column produced by the
`m × 1` final layer. -/
def forwardT {d L m : ℕ} (w : NNWeights d L m) (t : TensorInput d) :
    List (Fin 1 → ℝ) :=
  (promote t).map (fun x _ => forwardRow w x)

/-- The raw `np.random.randn` draws of `NeuralNetwork.__init__`: one
`(d/2) × (m/2)` block for layer 1, one `(m/2) × (m/2)` block shared by
all middle layers, and one length-`m/2` vector for the final layer —
exactly one draw per `randn` call in the source. -/
structure Draws (d m : ℕ) where
  w1 : Matrix (Fin (d / 2)) (Fin (m / 2)) ℝ
  wmid : Matrix (Fin (m / 2)) (Fin (m / 2)) ℝ
  wL : Fin (m / 2) → ℝ

/-- Lines 44-46 (and 54-56): a zero `a × b` matrix with the block `B`
placed on the top-left and bottom-right diagonal blocks. -/
def dupBlock (a b : ℕ) (B : Matrix (Fin (a / 2)) (Fin (b / 2)) ℝ) :
    Matrix (Fin a) (Fin b) ℝ :=
  Matrix.of fun i j =>
    if h : i.val < a / 2 ∧ j.val < b / 2 then B ⟨i.val, h.1⟩ ⟨j.val, h.2⟩
    else if h2 : a / 2 ≤ i.val ∧ b / 2 ≤ j.val ∧ i.val - a / 2 < a / 2 ∧
        j.val - b / 2 < b / 2 then
      B ⟨i.val - a / 2, h2.2.2.1⟩ ⟨j.val - b / 2, h2.2.2.2⟩
    else 0

/-- Lines 49-51: a length-`b` column holding `v` in its top half and
`-v` in its bottom half. -/
def dupColumn (b : ℕ) (v : Fin (b / 2) → ℝ) : Fin b → ℝ :=
  fun j =>
    if h : j.val < b / 2 then v ⟨j.val, h⟩
    else if h2 : b / 2 ≤ j.val ∧ j.val - b / 2 < b / 2 then
      -v ⟨j.val - b / 2, h2.2⟩
    else 0

/-- The antisymmetric initialisation of `NeuralNetwork.__init__`:
layer 1 duplicates the `sqrt(4/m)`-scaled block `w1`, every middle
layer duplicates the `sqrt(4/m)`-scaled block `wmid`, and the final
column holds the `sqrt(2/m)`-scaled vector `wL` and its negation. -/
def initWeights (d L m : ℕ) (dr : Draws d m) : NNWeights d L m where
  W1 := dupBlock d m (Matrix.of fun i j => Real.sqrt (4 / (m : ℝ)) * dr.w1 i j)
  Wmid := fun _ => dupBlock m m (Matrix.of fun i j => Real.sqrt (4 / (m : ℝ)) * dr.wmid i j)
  WL := dupColumn m (fun j => Real.sqrt (2 / (m : ℝ)) * dr.wL j)

/-- Backward pass of `NeuralNetwork.GetGrad` through the middle layers:
given the hidden vector `h` entering the listed layers, returns the last
hidden layer, the gradient of the scalar output with respect to `h`,
and the gradients with respect to the listed middle weight matrices. -/
def midsGrad {d L m : ℕ} (w : NNWeights d L m) :
    List (Fin (L - 2)) → (Fin m → ℝ) →
      ((Fin m → ℝ) × (Fin m → ℝ) × (Fin (L - 2) → Matrix (Fin m) (Fin m) ℝ))
  | [], h => (h, fun j => Real.sqrt m * w.WL j, fun _ => 0)
  | i :: rest, h =>
    let a := vmatmul h (w.Wmid i)
    let res := midsGrad w rest (reluVec a)
    let da : Fin m → ℝ := fun j => res.2.1 j * reluDeriv (a j)
    (res.1, fun j => ∑ k, w.Wmid i j k * da k,
      Function.update res.2.2 i (Matrix.of fun j k => h j * da k))

/-- `NeuralNetwork.GetGrad`: the gradient of the scalar
`forward(x)[0, 0]` with respect to every weight, kept in the same
per-layer shapes as the weights themselves (the source flattens them;
see `flat`). -/
def gradW {d L m : ℕ} (w : NNWeights d L m) (x : Fin d → ℝ) : NNWeights d L m :=
  let a1 := vmatmul x w.W1
  let res := midsGrad w (List.finRange (L - 2)) (reluVec a1)
  let da1 : Fin m → ℝ := fun j => res.2.1 j * reluDeriv (a1 j)
  { W1 := Matrix.of fun i j => x i * da1 j
    Wmid := res.2.2
    WL := fun j => Real.sqrt m * res.1 j }

/-- Index set of the flattened parameter vector: one index per scalar
weight (layer 1, then the middle layers, then the final column).  Its
cardinality is `p = m*d + m*m*(L-2) + m`, the `self.p` of the agent. -/
abbrev ParamIx (d L m : ℕ) :=
  (Fin d × Fin m) ⊕ ((Fin (L - 2) × Fin m × Fin m) ⊕ Fin m)

/-- The flattened parameter (or gradient) vector built by `GetGrad`
from per-layer matrices. -/
def flat {d L m : ℕ} (g : NNWeights d L m) : ParamIx d L m → ℝ
  | .inl ij => g.W1 ij.1 ij.2
  | .inr (.inl ljk) => g.Wmid ljk.1 ljk.2.1 ljk.2.2
  | .inr (.inr j) => g.WL j

/-- Maximum of a nonempty list of reals (helper for `npArgmax`). -/
def listMax : List ℝ → ℝ
  | [] => 0
  | x :: xs => xs.foldl max x

/-- `np.argmax` on a 1-D array: the first (lowest) index attaining the
maximum.  On the empty list the source raises `ValueError`; the value
returned here for `[]` is irrelevant because `actionE` guards that
case. -/
def npArgmax : List ℝ → ℕ
  | [] => 0
  | [_] => 0
  | x :: y :: xs => if x < listMax (y :: xs) then npArgmax (y :: xs) + 1 else 0

/-- Line 201 of the source,
`self.U = self.U + grad_parameter.dot(grad_parameter.transpose()) / self.m`.
`grad_parameter` is a 1-D numpy array, so `.transpose()` is the
identity, `.dot` is the inner product `∑ k, g k * g k`, and numpy
broadcasting adds the scalar `(g ⬝ g) / m` to every entry of `U`. -/
def npDotUpdate {n : Type*} [Fintype n] (U : Matrix n n ℝ) (g : n → ℝ)
    (m : ℝ) : Matrix n n ℝ :=
  Matrix.of fun i j => U i j + (∑ k, g k * g k) / m

instance {d L m : ℕ} : Zero (NNWeights d L m) :=
  ⟨⟨0, fun _ => 0, 0⟩⟩

instance {d L m : ℕ} : Add (NNWeights d L m) :=
  ⟨fun u v => ⟨u.W1 + v.W1, fun i => u.Wmid i + v.Wmid i, u.WL + v.WL⟩⟩

instance {d L m : ℕ} : Sub (NNWeights d L m) :=
  ⟨fun u v => ⟨u.W1 - v.W1, fun i => u.Wmid i - v.Wmid i, u.WL - v.WL⟩⟩

instance {d L m : ℕ} : SMul ℝ (NNWeights d L m) :=
  ⟨fun c u => ⟨c • u.W1, fun i => c • u.Wmid i, c • u.WL⟩⟩

/-- Index range of minibatch `b` in one training epoch (lines 218-225):
batches before the last take `bs` consecutive shuffled indices, the
last batch takes the remainder up to index `t`. -/
def batchIndices (t bs b : ℕ) : List ℕ :=
  if b < t / bs then (List.range bs).map (fun i => b * bs + i)
  else (List.range (t + 1 - b * bs)).map (fun i => b * bs + i)

/-- One SGD step on one minibatch (lines 227-242): the gradient of
`MSELoss(forward(X)[:, 0], y)` (mean reduction) plus the gradient of
the regulariser `λ * ‖w - W0‖² / (2 p)`, applied with learning rate
`eta`.  `tempC`/`tempR` are the shuffled history arrays and `idxs` the
minibatch index range. -/
def sgdStep {d L m : ℕ} (w W0 : NNWeights d L m) (eta lam : ℝ) (p : ℕ)
    (tempC : ℕ → Fin d → ℝ) (tempR : ℕ → ℝ) (idxs : List ℕ) :
    NNWeights d L m :=
  let n := idxs.length
  let gradMse : NNWeights d L m :=
    idxs.foldl
      (fun acc i =>
        acc + (2 * (forwardRow w (tempC i) - tempR i) / n) • gradW w (tempC i))
      0
  w - eta • (gradMse + (lam / p) • (w - W0))

/-- One training epoch (lines 211-245): shuffle the `t + 1` recorded
(context, reward) pairs with the permutation `shuf`, then run one SGD
step per minibatch, for batch indices `0 … t / bs`. -/
def epochStep {d L m : ℕ} (histC : ℕ → Fin d → ℝ) (histR : ℕ → ℝ)
    (t bs : ℕ) (eta lam : ℝ) (p : ℕ) (shuf : ℕ → ℕ)
    (W0 w : NNWeights d L m) : NNWeights d L m :=
  (List.range (t / bs + 1)).foldl
    (fun wcur b =>
      sgdStep wcur W0 eta lam p (fun i => histC (shuf i)) (fun i => histR (shuf i))
        (batchIndices t bs b))
    w

/-- Python exceptions the agent code can actually raise. -/
inductive PyError where
  | indexError
  | typeError
  | zeroDivisionError
  | valueError

/-- The seeded randomness consumed by the agent: the initialisation
draws, the standard normal stream of the agent's `random.Random`
instance, and the shuffle stream of the seeded global numpy generator.
All three generators in the source are seeded from `random_seed`, so a
`RandomSource` is a function of the seed alone. -/
structure RandomSource (d m : ℕ) where
  draws : Draws d m
  gauss : ℕ → ℝ
  perm : ℕ → ℕ → ℕ

/-- The state of `NeuralAgent`: every `self.*` field.  History arrays
have fixed length `T` in the source (`np.zeros(T)`); they are modelled
as total functions together with explicit `indexError` guards on the
round counter in `actionE`/`updateE`. -/
structure AgentState (K T d L m : ℕ) where
  nu : ℝ
  lam : ℝ
  eta : ℝ
  frequency : ℕ
  batchsize : Option ℕ
  weights : NNWeights d L m
  W0 : NNWeights d L m
  U : Matrix (ParamIx d L m) (ParamIx d L m) ℝ
  t : ℕ
  historyReward : ℕ → ℝ
  historyAction : ℕ → ℕ
  predictedReward : ℕ → ℝ
  historyContext : ℕ → Fin d → ℝ
  gauss : ℕ → ℝ
  gaussCount : ℕ
  perm : ℕ → ℕ → ℕ
  permCount : ℕ

/-- `NeuralAgent.__init__`: weights from the antisymmetric
initialisation, the frozen snapshot `W0` a value copy of them,
`U = λ I`, `t = 0`, and all history arrays zero. -/
def mkState (K T d L m : ℕ) (nu lam eta : ℝ) (frequency : ℕ)
    (batchsize : Option ℕ) (rs : RandomSource d m) : AgentState K T d L m :=
  let w := initWeights d L m rs.draws
  { nu := nu
    lam := lam
    eta := eta
    frequency := frequency
    batchsize := batchsize
    weights := w
    W0 := w
    U := lam • (1 : Matrix (ParamIx d L m) (ParamIx d L m) ℝ)
    t := 0
    historyReward := fun _ => 0
    historyAction := fun _ => 0
    predictedReward := fun _ => 0
    historyContext := fun _ _ => 0
    gauss := rs.gauss
    gaussCount := 0
    perm := rs.perm
    permCount := 0 }

/-- `NeuralAgent.__init__` as a fallible constructor: the source
constructor has no failing path — any `batchsize`, including `None`,
is stored as given. -/
def mkAgentE (K T d L m : ℕ) (nu lam eta : ℝ) (frequency : ℕ)
    (batchsize : Option ℕ) (rs : RandomSource d m) :
    Except PyError (AgentState K T d L m) :=
  .ok (mkState K T d L m nu lam eta frequency batchsize rs)

/-- The per-arm sampled rewards of `NeuralAgent.Action` (lines
179-184): `normalvariate(mu_k, sqrt(nu² σ²_k))` is `mu_k` plus that
standard deviation times the next standard normal draw of the agent's
generator, one draw per arm. -/
def actionSamples {K T d L m : ℕ} (s : AgentState K T d L m)
    (ctx : Fin K → Fin d → ℝ) : Fin K → ℝ :=
  let Uinv := s.U⁻¹
  fun k =>
    let g := flat (gradW s.weights (ctx k))
    let sigma2 := s.lam * (∑ j, (∑ i, g i * Uinv i j) * g j) / m
    forwardRow s.weights (ctx k) +
      Real.sqrt (s.nu ^ 2 * sigma2) * s.gauss (s.gaussCount + k.val)

/-- Reading row `n` of the `K × d` context matrix (`context_list[ind]`);
the fallback is never reached because `npArgmax` of a nonempty list is
in range. -/
def ctxRow {K d : ℕ} (ctx : Fin K → Fin d → ℝ) (n : ℕ) : Fin d → ℝ :=
  if h : n < K then ctx ⟨n, h⟩ else fun _ => 0

/-- The predicted mean of arm `n` (`predict_reward_[ind]`). -/
def muRow {K T d L m : ℕ} (s : AgentState K T d L m)
    (ctx : Fin K → Fin d → ℝ) (n : ℕ) : ℝ :=
  forwardRow s.weights (ctxRow ctx n)

/-- `NeuralAgent.Action`: sample every arm, pick `np.argmax`, record the
chosen action, context and predicted mean at round `t`, and return the
arm index.  Raises `indexError` when the history slot `t` is out of
range and `valueError` for `np.argmax` of an empty array (`K = 0`). -/
def actionE {K T d L m : ℕ} (s : AgentState K T d L m)
    (ctx : Fin K → Fin d → ℝ) :
    Except PyError (ℕ × AgentState K T d L m) :=
  if s.t < T then
    if 0 < K then
      let ind := npArgmax (List.ofFn (actionSamples s ctx))
      .ok (ind,
        { s with
          historyAction := Function.update s.historyAction s.t ind
          historyContext := Function.update s.historyContext s.t (ctxRow ctx ind)
          predictedReward := Function.update s.predictedReward s.t (muRow s ctx ind)
          gaussCount := s.gaussCount + K })
    else .error .valueError
  else .error .indexError

/-- `NeuralAgent.Update`: write the reward at slot `t`, fold the
recomputed gradient into `U` (see `npDotUpdate`), retrain when
`(t + 1) % frequency == 0` — resetting the weights to the snapshot
`W0` and running `min(t, 100)` epochs — and advance `t`.  Raises
`indexError` for an out-of-range slot, `zeroDivisionError` for
`% 0` / `// 0`, and `typeError` for `t // None` (which the source hits
only when a retraining epoch actually runs). -/
def updateE {K T d L m : ℕ} (s : AgentState K T d L m) (reward : ℝ) :
    Except PyError (AgentState K T d L m) :=
  if s.t < T then
    let hR := Function.update s.historyReward s.t reward
    let g := flat (gradW s.weights (s.historyContext s.t))
    let Unew := npDotUpdate s.U g m
    if s.frequency = 0 then .error .zeroDivisionError
    else if (s.t + 1) % s.frequency = 0 then
      let epochs := min s.t 100
      if epochs = 0 then
        .ok { s with historyReward := hR, U := Unew, weights := s.W0,
                     t := s.t + 1 }
      else
        match s.batchsize with
        | none => .error .typeError
        | some 0 => .error .zeroDivisionError
        | some bs =>
          let p := m + m * d + m * m * (L - 2)
          let wTrained :=
            (List.range epochs).foldl
              (fun wcur jj =>
                epochStep s.historyContext hR s.t bs s.eta s.lam p
                  (s.perm (s.permCount + jj)) s.W0 wcur)
              s.W0
          .ok { s with historyReward := hR, U := Unew, weights := wTrained,
                       permCount := s.permCount + epochs, t := s.t + 1 }
    else
      .ok { s with historyReward := hR, U := Unew, t := s.t + 1 }
  else .error .indexError

/-- A full run: alternate `Action`/`Update` over the given per-round
(context matrix, reward) pairs, collecting the chosen arm indices and
the final state. -/
def runTraceE {K T d L m : ℕ} (s : AgentState K T d L m) :
    List ((Fin K → Fin d → ℝ) × ℝ) →
      Except PyError (List ℕ × AgentState K T d L m)
  | [] => .ok ([], s)
  | (c, r) :: rest =>
    match actionE s c with
    | .error e => .error e
    | .ok (i, s1) =>
      match updateE s1 r with
      | .error e => .error e
      | .ok s2 =>
        match runTraceE s2 rest with
        | .error e => .error e
        | .ok (is, sf) => .ok (i :: is, sf)

/-! ### Concrete fixtures used by counterexamples and witnesses -/

/-- Extract the success value of an `Except`, with a default (used only
to name concrete run results in witnesses). -/
def okD {ε α : Type*} (e : Except ε α) (dflt : α) : α :=
  match e with
  | .ok a => a
  | .error _ => dflt

/-- A concrete random source for `d = m = 2`: zero initialisation
draws, a zero Gaussian stream, and identity shuffles. -/
def rsZero : RandomSource 2 2 :=
  ⟨⟨0, 0, fun _ => 0⟩, fun _ => 0, fun _ n => n⟩

/-- A concrete agent state at round `t = 1` with `batchsize` omitted
and `frequency = 2`, about to trigger a retraining epoch. -/
def sC6 : AgentState 1 5 2 2 2 :=
  { mkState 1 5 2 2 2 1 1 0 2 none rsZero with t := 1 }

/-! ### C10: 1-D inputs to `forward` -/

/-- Claim C10: `forward` accepts a single 1-D context vector of length
`d`, implicitly promotes it to a batch of one row, and returns a
`(1, 1)` result equal to `forward` of the one-row matrix. -/
theorem claimC10 {d L m : ℕ} (w : NNWeights d L m) (x : Fin d → ℝ) :
    forwardT w (.vec x) = forwardT w (.mat [x]) ∧
      (forwardT w (.vec x)).length = 1 :=
  ⟨rfl, rfl⟩

/-! ### C2: the confidence-matrix increment -/

/-- Claim C2 is a code bug: at `p = 2`, `g = (1, 0)`, `m = 1` and
`U = I`, line 201 (embedded as `npDotUpdate`, the operation `updateE`
applies to `U`) sets entry `(1, 1)` to `2`, because the 1-D numpy
`dot` is the inner product `g ⬝ g = 1` broadcast onto every entry —
whereas the claimed rank-1 update `U[i][j] + g[i]*g[j]/m` leaves entry
`(1, 1)` at `1 + 0*0/1 = 1`. -/
theorem claimC2_codeBug :
    npDotUpdate (1 : Matrix (Fin 2) (Fin 2) ℝ) ![1, 0] 1 1 1 = 2 ∧
      (1 : Matrix (Fin 2) (Fin 2) ℝ) 1 1 + ![(1 : ℝ), 0] 1 * ![(1 : ℝ), 0] 1 / 1 = 1 := by
  constructor
  · simp [npDotUpdate, Fin.sum_univ_two, Matrix.one_apply]
    norm_num
  · simp [Matrix.one_apply]

/-! ### C6: construction with `batchsize` omitted -/

/-- Claim C6 fails on the code: constructing with `batchsize` omitted
raises nothing — the constructor stores `None` and returns a fully
allocated agent. -/
theorem claimC6_cex :
    mkAgentE 1 5 2 2 2 1 1 0 50 none rsZero =
      .ok (mkState 1 5 2 2 2 1 1 0 50 none rsZero) := rfl

/-- Claim C6, amended: constructing an agent with `batchsize` omitted
succeeds (the agent is allocated with `batchsize = None`); the missing
batch size only surfaces later, as a `TypeError` from `t // None`, in
the first `Update` that triggers a retraining episode with at least
one epoch. -/
theorem claimC6_amended (K T d L m : ℕ) (nu lam eta : ℝ) (freq : ℕ)
    (rs : RandomSource d m) :
    (mkAgentE K T d L m nu lam eta freq none rs).isOk = true ∧
      ∀ (s : AgentState K T d L m) (r : ℝ), s.batchsize = none →
        s.t < T → s.frequency ≠ 0 → (s.t + 1) % s.frequency = 0 →
        min s.t 100 ≠ 0 → updateE s r = .error .typeError := by
  refine ⟨rfl, fun s r hbs ht hf htrig hep => ?_⟩
  simp only [updateE, if_pos ht, if_neg hf, if_pos htrig, if_neg hep, hbs]

/-- Witness for the amended C6 at a concrete agent: construction with
`batchsize` omitted succeeds, and the `Update` at `t = 1` with
`frequency = 2` fails with a `TypeError`. -/
theorem claimC6_witness :
    (mkAgentE 1 5 2 2 2 1 1 0 2 none rsZero).isOk = true ∧
      updateE sC6 0 = .error .typeError := by
  have h := claimC6_amended 1 5 2 2 2 1 1 0 2 rsZero
  exact ⟨h.1, h.2 sC6 0 rfl (by decide) (by decide) (by decide) (by decide)⟩

/-! ### C7: determinism under a fixed seed -/

/-- Claim C7: all randomness in the agent is drawn from generators
seeded by `random_seed` (modelled by the `RandomSource`), so two
independent agents constructed from the same source and fed identical
per-round context matrices and rewards produce identical action
sequences and identical final confidence matrices. -/
theorem claimC7 (K T d L m : ℕ) (nu lam eta : ℝ) (freq : ℕ)
    (bs : Option ℕ) (rs : RandomSource d m)
    (rounds : List ((Fin K → Fin d → ℝ) × ℝ))
    (s1 s2 : AgentState K T d L m)
    (h1 : s1 = mkState K T d L m nu lam eta freq bs rs)
    (h2 : s2 = mkState K T d L m nu lam eta freq bs rs) :
    (runTraceE s1 rounds).map Prod.fst = (runTraceE s2 rounds).map Prod.fst ∧
      (runTraceE s1 rounds).map (fun pr => pr.2.U) =
        (runTraceE s2 rounds).map (fun pr => pr.2.U) := by
  subst h1; subst h2; exact ⟨rfl, rfl⟩

/-- Witness for C7 at a concrete configuration and a one-round input. -/
theorem claimC7_witness :
    mkState 1 5 2 2 2 1 1 0 50 (some 1) rsZero =
        mkState 1 5 2 2 2 1 1 0 50 (some 1) rsZero ∧
      ((runTraceE (mkState 1 5 2 2 2 1 1 0 50 (some 1) rsZero)
            [(fun _ _ => 0, 1)]).map Prod.fst =
          (runTraceE (mkState 1 5 2 2 2 1 1 0 50 (some 1) rsZero)
            [(fun _ _ => 0, 1)]).map Prod.fst ∧
        (runTraceE (mkState 1 5 2 2 2 1 1 0 50 (some 1) rsZero)
            [(fun _ _ => 0, 1)]).map (fun pr => pr.2.U) =
          (runTraceE (mkState 1 5 2 2 2 1 1 0 50 (some 1) rsZero)
            [(fun _ _ => 0, 1)]).map (fun pr => pr.2.U)) :=
  ⟨rfl, claimC7 1 5 2 2 2 1 1 0 50 (some 1) rsZero [(fun _ _ => 0, 1)] _ _ rfl rfl⟩

/-! ### C8: the arm returned by `Action` -/

lemma foldl_max_comm (l : List ℝ) : ∀ a b : ℝ,
    l.foldl max (max a b) = max a (l.foldl max b) := by
  induction l with
  | nil => intro a b; rfl
  | cons c l ih =>
    intro a b
    simp only [List.foldl_cons, max_assoc]
    exact ih a (max b c)

lemma init_le_foldl_max (l : List ℝ) : ∀ a : ℝ, a ≤ l.foldl max a := by
  induction l with
  | nil => intro a; exact le_rfl
  | cons c l ih =>
    intro a
    exact le_trans (le_max_left a c) (ih (max a c))

lemma mem_le_foldl_max (l : List ℝ) : ∀ a x : ℝ, x ∈ l → x ≤ l.foldl max a := by
  induction l with
  | nil => intro a x hx; cases hx
  | cons c l ih =>
    intro a x hx
    rcases List.mem_cons.mp hx with h | h
    · subst h
      exact le_trans (le_max_right a x) (init_le_foldl_max l (max a x))
    · exact ih (max a c) x h

lemma foldl_max_cases (l : List ℝ) : ∀ a : ℝ, l.foldl max a = a ∨ l.foldl max a ∈ l := by
  induction l with
  | nil => intro a; exact Or.inl rfl
  | cons c l ih =>
    intro a
    rcases ih (max a c) with h | h
    · rcases max_cases a c with ⟨he, _⟩ | ⟨he, _⟩
      · exact Or.inl (by rw [List.foldl_cons, h, he])
      · exact Or.inr (by rw [List.foldl_cons, h, he]; exact List.mem_cons_self c l)
    · exact Or.inr (List.mem_cons_of_mem c h)

lemma le_listMax (l : List ℝ) (x : ℝ) (hx : x ∈ l) : x ≤ listMax l := by
  cases l with
  | nil => cases hx
  | cons c l =>
    rcases List.mem_cons.mp hx with h | h
    · subst h; exact init_le_foldl_max l x
    · exact mem_le_foldl_max l c x h

lemma listMax_cons (x y : ℝ) (xs : List ℝ) :
    listMax (x :: y :: xs) = max x (listMax (y :: xs)) := by
  simp only [listMax, List.foldl_cons]
  exact foldl_max_comm xs x y

lemma npArgmax_lt (l : List ℝ) (hl : l ≠ []) : npArgmax l < l.length := by
  induction l with
  | nil => cases hl rfl
  | cons x xs ih =>
    cases xs with
    | nil => simp [npArgmax]
    | cons y ys =>
      by_cases h : x < listMax (y :: ys)
      · have hlt := ih (by simp)
        simp only [List.length_cons] at hlt
        simp only [npArgmax, if_pos h, List.length_cons]
        omega
      · simp [npArgmax, if_neg h]

lemma npArgmax_getD (l : List ℝ) (hl : l ≠ []) :
    l.getD (npArgmax l) 0 = listMax l := by
  induction l with
  | nil => cases hl rfl
  | cons x xs ih =>
    cases xs with
    | nil => simp [npArgmax, listMax]
    | cons y ys =>
      by_cases h : x < listMax (y :: ys)
      · have hmax : listMax (x :: y :: ys) = listMax (y :: ys) := by
          rw [listMax_cons]; exact max_eq_right (le_of_lt h)
        simp only [npArgmax, if_pos h, List.getD_cons_succ, hmax]
        exact ih (by simp)
      · have hmax : listMax (x :: y :: ys) = x := by
          rw [listMax_cons]; exact max_eq_left (le_of_not_lt h)
        simp [npArgmax, if_neg h, hmax]

lemma npArgmax_first (l : List ℝ) : ∀ j, j < npArgmax l →
    l.getD j 0 < listMax l := by
  induction l with
  | nil => intro j hj; simp [npArgmax] at hj
  | cons x xs ih =>
    cases xs with
    | nil => intro j hj; simp [npArgmax] at hj
    | cons y ys =>
      intro j hj
      by_cases h : x < listMax (y :: ys)
      · have hmax : listMax (x :: y :: ys) = listMax (y :: ys) := by
          rw [listMax_cons]; exact max_eq_right (le_of_lt h)
        simp only [npArgmax, if_pos h] at hj
        cases j with
        | zero => simpa [hmax] using h
        | succ j => simpa [hmax] using ih j (by omega)
      · simp [npArgmax, if_neg h] at hj

/-- Claim C8: a successful `Action` call returns `np.argmax` of the
sampled values: an index in `[0, K)` whose sample dominates every
arm's sample and which is the lowest index attaining that maximum. -/
theorem claimC8 {K T d L m : ℕ} (s : AgentState K T d L m)
    (ctx : Fin K → Fin d → ℝ) (i : ℕ)
    (h : (actionE s ctx).map Prod.fst = .ok i) :
    i < K ∧
      (∀ j, j < K → (List.ofFn (actionSamples s ctx)).getD j 0 ≤
        (List.ofFn (actionSamples s ctx)).getD i 0) ∧
      (∀ j, j < K → (List.ofFn (actionSamples s ctx)).getD j 0 =
        (List.ofFn (actionSamples s ctx)).getD i 0 → i ≤ j) := by
  set l := List.ofFn (actionSamples s ctx) with hldef
  have hlen : l.length = K := by simp [hldef]
  by_cases ht : s.t < T
  · by_cases hK : 0 < K
    · have hi : i = npArgmax l := by
        simp only [actionE, if_pos ht, if_pos hK, Except.map] at h
        exact (Except.ok.injEq _ _).mp h |>.symm
      have hne : l ≠ [] := by
        intro hnil
        rw [hnil] at hlen
        simp at hlen
        omega
      have hmax : l.getD (npArgmax l) 0 = listMax l := npArgmax_getD l hne
      refine ⟨?_, ?_, ?_⟩
      · rw [hi]
        have := npArgmax_lt l hne
        omega
      · intro j hj
        rw [hi, hmax]
        refine le_listMax l _ ?_
        have hjl : j < l.length := by omega
        rw [l.getD_eq_getElem 0 hjl]
        exact l.getElem_mem hjl
      · intro j hj hje
        by_contra hlt
        have hji : j < npArgmax l := by omega
        have := npArgmax_first l j hji
        rw [hi, hmax] at hje
        exact absurd hje (ne_of_lt this)
    · simp [actionE, if_pos ht, if_neg hK, Except.map] at h
  · simp [actionE, if_neg ht, Except.map] at h

/-- Witness for C8: the fresh one-armed agent on the zero context
matrix returns arm `0`, which satisfies all three properties. -/
theorem claimC8_witness :
    (actionE (mkState 1 5 2 2 2 1 1 0 50 (some 1) rsZero)
        (fun _ _ => 0)).map Prod.fst = .ok 0 ∧
      (0 < 1 ∧
        (∀ j, j < 1 →
          (List.ofFn (actionSamples (mkState 1 5 2 2 2 1 1 0 50 (some 1) rsZero)
            (fun _ _ => 0))).getD j 0 ≤
          (List.ofFn (actionSamples (mkState 1 5 2 2 2 1 1 0 50 (some 1) rsZero)
            (fun _ _ => 0))).getD 0 0) ∧
        (∀ j, j < 1 →
          (List.ofFn (actionSamples (mkState 1 5 2 2 2 1 1 0 50 (some 1) rsZero)
            (fun _ _ => 0))).getD j 0 =
          (List.ofFn (actionSamples (mkState 1 5 2 2 2 1 1 0 50 (some 1) rsZero)
            (fun _ _ => 0))).getD 0 0 → 0 ≤ j)) :=
  ⟨rfl, claimC8 (mkState 1 5 2 2 2 1 1 0 50 (some 1) rsZero) (fun _ _ => 0) 0 rfl⟩

/-! ### C3 and C9: evolution of the confidence matrix -/

lemma posSemidef_const {n : Type*} [Fintype n] {c : ℝ} (hc : 0 ≤ c) :
    ((Matrix.of fun _ _ => c) : Matrix n n ℝ).PosSemidef := by
  constructor
  · ext i j
    simp [Matrix.conjTranspose_apply]
  · intro x
    have hrw : Matrix.dotProduct (star x)
          (Matrix.mulVec ((Matrix.of fun _ _ => c) : Matrix n n ℝ) x) =
        c * ((∑ i, x i) * (∑ i, x i)) := by
      simp only [Matrix.dotProduct, Matrix.mulVec, Matrix.of_apply, star_trivial]
      rw [← Finset.sum_mul]
      rw [← Finset.mul_sum]
      ring
    rw [hrw]
    exact mul_nonneg hc (mul_self_nonneg _)

lemma npDotUpdate_posDef {n : Type*} [Fintype n] {U : Matrix n n ℝ}
    (g : n → ℝ) {mm : ℝ} (hmm : 0 ≤ mm) (hU : U.PosDef) :
    (npDotUpdate U g mm).PosDef := by
  have hc : 0 ≤ (∑ k, g k * g k) / mm :=
    div_nonneg (Finset.sum_nonneg fun k _ => mul_self_nonneg _) hmm
  have hrw : npDotUpdate U g mm =
      U + ((Matrix.of fun _ _ => (∑ k, g k * g k) / mm) : Matrix n n ℝ) := by
    ext i j; simp [npDotUpdate, Matrix.add_apply]
  rw [hrw]
  exact hU.add_posSemidef (posSemidef_const hc)

lemma npDotUpdate_isSymm {n : Type*} [Fintype n] {U : Matrix n n ℝ}
    (g : n → ℝ) (mm : ℝ) (hU : U.IsSymm) : (npDotUpdate U g mm).IsSymm := by
  ext i j
  simp only [npDotUpdate, Matrix.transpose_apply, Matrix.of_apply]
  rw [hU.apply j i]

lemma npDotUpdate_trace_le {n : Type*} [Fintype n] (U : Matrix n n ℝ)
    (g : n → ℝ) {mm : ℝ} (hmm : 0 ≤ mm) :
    U.trace ≤ (npDotUpdate U g mm).trace := by
  have hc : 0 ≤ (∑ k, g k * g k) / mm :=
    div_nonneg (Finset.sum_nonneg fun k _ => mul_self_nonneg _) hmm
  simp only [Matrix.trace, Matrix.diag, npDotUpdate, Matrix.of_apply,
    Finset.sum_add_distrib]
  exact le_add_of_nonneg_right (Finset.sum_nonneg fun _ _ => hc)

lemma smul_one_posDef {n : Type*} [Fintype n] [DecidableEq n] {lam : ℝ}
    (h : 0 < lam) : (lam • (1 : Matrix n n ℝ)).PosDef := by
  have hrw : lam • (1 : Matrix n n ℝ) = Matrix.diagonal (fun _ => lam) := by
    ext i j
    by_cases hij : i = j <;>
      simp [Matrix.one_apply, Matrix.diagonal_apply, hij]
  rw [hrw]
  exact Matrix.PosDef.diagonal (fun _ => h)

lemma smul_one_isSymm {n : Type*} [Fintype n] [DecidableEq n] (lam : ℝ) :
    (lam • (1 : Matrix n n ℝ)).IsSymm := by
  ext i j
  by_cases hij : i = j <;>
    simp [Matrix.one_apply, hij, eq_comm]

lemma actionE_U {K T d L m : ℕ} {s : AgentState K T d L m}
    {c : Fin K → Fin d → ℝ} {i : ℕ} {s' : AgentState K T d L m}
    (h : actionE s c = .ok (i, s')) : s'.U = s.U := by
  by_cases ht : s.t < T
  · by_cases hK : 0 < K
    · simp only [actionE, if_pos ht, if_pos hK] at h
      cases h
      rfl
    · simp [actionE, if_pos ht, if_neg hK] at h
  · simp [actionE, if_neg ht] at h

lemma updateE_U {K T d L m : ℕ} {s : AgentState K T d L m} {r : ℝ}
    {s' : AgentState K T d L m} (h : updateE s r = .ok s') :
    s'.U = npDotUpdate s.U (flat (gradW s.weights (s.historyContext s.t))) m := by
  by_cases ht : s.t < T
  · simp only [updateE, if_pos ht] at h
    by_cases hf : s.frequency = 0
    · simp [if_pos hf] at h
    · simp only [if_neg hf] at h
      by_cases htr : (s.t + 1) % s.frequency = 0
      · simp only [if_pos htr] at h
        by_cases hep : min s.t 100 = 0
        · simp only [if_pos hep] at h
          cases h
          rfl
        · simp only [if_neg hep] at h
          cases hbs : s.batchsize with
          | none => rw [hbs] at h; cases h
          | some bs =>
            cases bs with
            | zero => rw [hbs] at h; cases h
            | succ b => rw [hbs] at h; cases h; rfl
      · simp only [if_neg htr] at h
        cases h
        rfl
  · simp [updateE, if_neg ht] at h

lemma runTraceE_U_inv {K T d L m : ℕ} :
    ∀ (rounds : List ((Fin K → Fin d → ℝ) × ℝ)) (s : AgentState K T d L m)
      (tr : List ℕ) (sf : AgentState K T d L m),
      runTraceE s rounds = .ok (tr, sf) →
      s.U.IsSymm ∧ s.U.PosDef → sf.U.IsSymm ∧ sf.U.PosDef := by
  intro rounds
  induction rounds with
  | nil =>
    intro s tr sf h hInv
    simp only [runTraceE] at h
    cases h
    exact hInv
  | cons cr rest ih =>
    intro s tr sf h hInv
    obtain ⟨c, r⟩ := cr
    cases hA : actionE s c with
    | error e => simp [runTraceE, hA] at h
    | ok pr =>
      obtain ⟨i, s1⟩ := pr
      cases hUp : updateE s1 r with
      | error e => simp [runTraceE, hA, hUp] at h
      | ok s2 =>
        cases hR : runTraceE s2 rest with
        | error e => simp [runTraceE, hA, hUp, hR] at h
        | ok pr2 =>
          obtain ⟨tr2, sf2⟩ := pr2
          have hf : sf2 = sf := by
            simp only [runTraceE, hA, hUp, hR] at h
            cases h
            rfl
          have hs1 : s1.U = s.U := actionE_U hA
          have hs2 : s2.U =
              npDotUpdate s1.U (flat (gradW s1.weights (s1.historyContext s1.t))) m :=
            updateE_U hUp
          have hInv2 : s2.U.IsSymm ∧ s2.U.PosDef := by
            rw [hs2, hs1]
            exact ⟨npDotUpdate_isSymm _ _ hInv.1,
              npDotUpdate_posDef _ (Nat.cast_nonneg m) hInv.2⟩
          rw [← hf]
          exact ih s2 tr2 sf2 hR hInv2

/-- Claim C3: for every `λ > 0` and every finite sequence of
alternating `Action`/`Update` calls starting from a fresh agent, the
confidence matrix stays symmetric and positive definite — with every
eigenvalue strictly positive — after every round.  (Any prefix of a run
is itself a run, so this covers the state after each `Update`.) -/
theorem claimC3 (K T d L m : ℕ) (nu lam eta : ℝ) (freq : ℕ) (bs : Option ℕ)
    (rs : RandomSource d m) (rounds : List ((Fin K → Fin d → ℝ) × ℝ))
    (tr : List ℕ) (sf : AgentState K T d L m) (hlam : 0 < lam)
    (h : runTraceE (mkState K T d L m nu lam eta freq bs rs) rounds = .ok (tr, sf)) :
    sf.U.IsSymm ∧ sf.U.PosDef ∧
      ∀ hH : sf.U.IsHermitian, ∀ ix, 0 < hH.eigenvalues ix := by
  have h0 : (mkState K T d L m nu lam eta freq bs rs).U.IsSymm ∧
      (mkState K T d L m nu lam eta freq bs rs).U.PosDef :=
    ⟨smul_one_isSymm lam, smul_one_posDef hlam⟩
  obtain ⟨hS, hPD⟩ := runTraceE_U_inv rounds _ tr sf h h0
  refine ⟨hS, hPD, fun hH ix => ?_⟩
  have : hH = hPD.1 := Subsingleton.elim _ _
  rw [this]
  exact hPD.eigenvalues_pos ix

/-- Claim C9: an `Update` never decreases the trace of the confidence
matrix (the scalar added to each diagonal entry is `(g ⬝ g)/m ≥ 0`). -/
theorem claimC9 {K T d L m : ℕ} (s : AgentState K T d L m) (r : ℝ)
    (s' : AgentState K T d L m) (h : updateE s r = .ok s') :
    s.U.trace ≤ s'.U.trace := by
  rw [updateE_U h]
  exact npDotUpdate_trace_le s.U _ (Nat.cast_nonneg m)

/-- A fresh concrete agent (`K = 1`, `T = 5`, `d = L = m = 2`,
`frequency = 50`, `batchsize = 1`). -/
def cAg : AgentState 1 5 2 2 2 := mkState 1 5 2 2 2 1 1 0 50 (some 1) rsZero

/-- The state after one `Action` on the zero context matrix. -/
def cAg1 : AgentState 1 5 2 2 2 :=
  okD ((actionE cAg (fun _ _ => 0)).map Prod.snd) cAg

/-- The state after the matching `Update` (round counter now `1`). -/
def cAg2 : AgentState 1 5 2 2 2 := okD (updateE cAg1 0) cAg

/-- Witness for C3 on a concrete one-round run. -/
theorem claimC3_witness :
    (0 : ℝ) < 1 ∧
      runTraceE (mkState 1 5 2 2 2 1 1 0 50 (some 1) rsZero) [(fun _ _ => 0, 1)] =
        .ok (okD (runTraceE (mkState 1 5 2 2 2 1 1 0 50 (some 1) rsZero)
            [(fun _ _ => 0, 1)]) ([], cAg)) ∧
      ((okD (runTraceE (mkState 1 5 2 2 2 1 1 0 50 (some 1) rsZero)
            [(fun _ _ => 0, 1)]) ([], cAg)).2.U.IsSymm ∧
        (okD (runTraceE (mkState 1 5 2 2 2 1 1 0 50 (some 1) rsZero)
            [(fun _ _ => 0, 1)]) ([], cAg)).2.U.PosDef ∧
        ∀ hH : (okD (runTraceE (mkState 1 5 2 2 2 1 1 0 50 (some 1) rsZero)
            [(fun _ _ => 0, 1)]) ([], cAg)).2.U.IsHermitian,
          ∀ ix, 0 < hH.eigenvalues ix) :=
  ⟨by norm_num, rfl,
    claimC3 1 5 2 2 2 1 1 0 50 (some 1) rsZero [(fun _ _ => 0, 1)] _ _
      (by norm_num) rfl⟩

/-- Witness for C9 on a concrete `Update`. -/
theorem claimC9_witness :
    updateE cAg 1 = .ok (okD (updateE cAg 1) cAg) ∧
      cAg.U.trace ≤ (okD (updateE cAg 1) cAg).U.trace :=
  ⟨rfl, claimC9 cAg 1 (okD (updateE cAg 1) cAg) rfl⟩

/-! ### C4: a second `Update` without an intervening `Action` -/

/-- Claim C4 fails on the code: after `Action`/`Update`, a second
`Update` with no intervening `Action` raises nothing — the source has
no sequencing check (and no `SequenceError` exists anywhere in it) —
and the call advances the round counter from `1` to `2` instead of
leaving the state untouched. -/
theorem claimC4_cex :
    (updateE cAg2 0).isOk = true ∧
      cAg2.t = 1 ∧ (updateE cAg2 0).map (fun x => x.t) = .ok 2 :=
  ⟨rfl, rfl, rfl⟩

/-- Claim C4, amended: `Update` performs no sequencing check at all, so
a second `Update` without an intervening `Action` does not raise:
whenever the slot `t` is in range, `frequency` is nonzero and no
retraining triggers, the call succeeds, stores the reward into slot
`t` (whose action and context still hold their default zeros), and
increments `t`. -/
theorem claimC4_amended {K T d L m : ℕ} (s : AgentState K T d L m) (r : ℝ)
    (ht : s.t < T) (hf : s.frequency ≠ 0)
    (htrig : (s.t + 1) % s.frequency ≠ 0) :
    (updateE s r).isOk = true ∧
      (updateE s r).map (fun x => x.t) = .ok (s.t + 1) ∧
      (updateE s r).map (fun x => x.historyReward s.t) = .ok r := by
  simp [updateE, if_pos ht, if_neg hf, if_neg htrig, Except.map, Except.isOk,
    Except.toBool]

/-- Witness for the amended C4 at the concrete post-round state. -/
theorem claimC4_witness :
    cAg2.t < 5 ∧ cAg2.frequency ≠ 0 ∧ (cAg2.t + 1) % cAg2.frequency ≠ 0 ∧
      ((updateE cAg2 0).isOk = true ∧
        (updateE cAg2 0).map (fun x => x.t) = .ok (cAg2.t + 1) ∧
        (updateE cAg2 0).map (fun x => x.historyReward cAg2.t) = .ok 0) :=
  ⟨by decide, by decide, by decide,
    claimC4_amended cAg2 0 (by decide) (by decide) (by decide)⟩

/-! ### C5: the retraining trigger and episode structure -/

/-- Claim C5: a successful `Update` retrains exactly when
`(t + 1) % frequency == 0`, and a retraining episode folds exactly
`min(t, 100)` training epochs starting from the initial-parameter
snapshot `W0` (the hard reset); otherwise the weights are untouched. -/
theorem claimC5 {K T d L m : ℕ} (s : AgentState K T d L m) (r : ℝ)
    (s' : AgentState K T d L m) (h : updateE s r = .ok s') :
    ((s.t + 1) % s.frequency ≠ 0 → s'.weights = s.weights) ∧
      ((s.t + 1) % s.frequency = 0 → s'.weights =
        (List.range (min s.t 100)).foldl
          (fun wcur jj =>
            epochStep s.historyContext (Function.update s.historyReward s.t r)
              s.t (s.batchsize.getD 0) s.eta s.lam (m + m * d + m * m * (L - 2))
              (s.perm (s.permCount + jj)) s.W0 wcur)
          s.W0) := by
  by_cases ht : s.t < T
  · simp only [updateE, if_pos ht] at h
    by_cases hf : s.frequency = 0
    · simp [if_pos hf] at h
    · simp only [if_neg hf] at h
      by_cases htr : (s.t + 1) % s.frequency = 0
      · simp only [if_pos htr] at h
        refine ⟨fun hcon => absurd htr hcon, fun _ => ?_⟩
        by_cases hep : min s.t 100 = 0
        · simp only [if_pos hep] at h
          cases h
          simp [hep]
        · simp only [if_neg hep] at h
          cases hbs : s.batchsize with
          | none => rw [hbs] at h; cases h
          | some bs =>
            cases bs with
            | zero => rw [hbs] at h; cases h
            | succ b =>
              rw [hbs] at h
              cases h
              simp [hbs]
      · simp only [if_neg htr] at h
        cases h
        exact ⟨fun _ => rfl, fun hcon => absurd hcon htr⟩
  · simp [updateE, if_neg ht] at h

/-- A fresh agent with `frequency = 1`, whose first `Update` triggers a
(zero-epoch) retraining episode. -/
def c5s : AgentState 1 5 2 2 2 := mkState 1 5 2 2 2 1 1 0 1 (some 1) rsZero

/-- Witness for C5: the first `Update` of a `frequency = 1` agent
triggers retraining, and the resulting weights are the
`min(0, 100) = 0`-epoch fold from the snapshot, i.e. `W0` itself. -/
theorem claimC5_witness :
    updateE c5s 0 = .ok (okD (updateE c5s 0) c5s) ∧
      (c5s.t + 1) % c5s.frequency = 0 ∧
      (okD (updateE c5s 0) c5s).weights =
        (List.range (min c5s.t 100)).foldl
          (fun wcur jj =>
            epochStep c5s.historyContext (Function.update c5s.historyReward c5s.t 0)
              c5s.t (c5s.batchsize.getD 0) c5s.eta c5s.lam (2 + 2 * 2 + 2 * 2 * (2 - 2))
              (c5s.perm (c5s.permCount + jj)) c5s.W0 wcur)
          c5s.W0 :=
  ⟨rfl, by decide, (claimC5 c5s 0 (okD (updateE c5s 0) c5s) rfl).2 (by decide)⟩

/-! ### C1: the value of `forward` at the initial parameters -/

/-- Embedding of the top half of a split index range. -/
def eTop {b : ℕ} (j : Fin (b / 2)) : Fin b :=
  ⟨j.val, lt_of_lt_of_le j.2 (Nat.div_le_self b 2)⟩

/-- Embedding of the bottom half of a split index range. -/
def eBot {b : ℕ} (j : Fin (b / 2)) : Fin b :=
  ⟨j.val + b / 2, by have h := j.2; omega⟩

/-- A vector over an even index range whose bottom half repeats its top
half — the image of the context transformation `x ↦ (x̄, x̄)` assumed by
the antisymmetric construction. -/
def Mirrored (b : ℕ) (v : Fin b → ℝ) : Prop :=
  ∀ j (h : j < b / 2), v ⟨j + b / 2, by omega⟩ = v ⟨j, by omega⟩

lemma sum_halves (b : ℕ) (hb : b % 2 = 0) (f : Fin b → ℝ) :
    ∑ j, f j = (∑ j : Fin (b / 2), f (eTop j)) + ∑ j : Fin (b / 2), f (eBot j) := by
  have h2 : b / 2 + b / 2 = b := by omega
  rw [← Fin.sum_congr' f h2, Fin.sum_univ_add]
  congr 1
  refine Finset.sum_congr rfl fun j _ => congrArg f (Fin.ext ?_)
  show (Fin.cast h2 (Fin.natAdd (b / 2) j)).val = j.val + b / 2
  simp only [Fin.coe_cast, Fin.coe_natAdd]
  omega

lemma dupBlock_tt {a b : ℕ} (B : Matrix (Fin (a / 2)) (Fin (b / 2)) ℝ)
    (i : Fin (a / 2)) (j : Fin (b / 2)) :
    dupBlock a b B (eTop i) (eTop j) = B i j := by
  have h1 : (eTop i).val < a / 2 ∧ (eTop j).val < b / 2 := ⟨i.2, j.2⟩
  simp only [dupBlock, Matrix.of_apply, dif_pos h1]
  rfl

lemma dupBlock_tb {a b : ℕ} (B : Matrix (Fin (a / 2)) (Fin (b / 2)) ℝ)
    (i : Fin (a / 2)) (j : Fin (b / 2)) :
    dupBlock a b B (eTop i) (eBot j) = 0 := by
  have hj := j.2
  have h1 : ¬((eTop i).val < a / 2 ∧ (eBot j).val < b / 2) := by
    simp only [eTop, eBot]
    omega
  have h2 : ¬(a / 2 ≤ (eTop i).val ∧ b / 2 ≤ (eBot j).val ∧
      (eTop i).val - a / 2 < a / 2 ∧ (eBot j).val - b / 2 < b / 2) := by
    have hi := i.2
    simp only [eTop, eBot]
    omega
  simp only [dupBlock, Matrix.of_apply, dif_neg h1, dif_neg h2]

lemma dupBlock_bt {a b : ℕ} (B : Matrix (Fin (a / 2)) (Fin (b / 2)) ℝ)
    (i : Fin (a / 2)) (j : Fin (b / 2)) :
    dupBlock a b B (eBot i) (eTop j) = 0 := by
  have hi := i.2
  have h1 : ¬((eBot i).val < a / 2 ∧ (eTop j).val < b / 2) := by
    simp only [eTop, eBot]
    omega
  have h2 : ¬(a / 2 ≤ (eBot i).val ∧ b / 2 ≤ (eTop j).val ∧
      (eBot i).val - a / 2 < a / 2 ∧ (eTop j).val - b / 2 < b / 2) := by
    have hj := j.2
    simp only [eTop, eBot]
    omega
  simp only [dupBlock, Matrix.of_apply, dif_neg h1, dif_neg h2]

lemma dupBlock_bb {a b : ℕ} (B : Matrix (Fin (a / 2)) (Fin (b / 2)) ℝ)
    (i : Fin (a / 2)) (j : Fin (b / 2)) :
    dupBlock a b B (eBot i) (eBot j) = B i j := by
  have hi := i.2
  have hj := j.2
  have h1 : ¬((eBot i).val < a / 2 ∧ (eBot j).val < b / 2) := by
    simp only [eBot]
    omega
  have h2 : a / 2 ≤ (eBot i).val ∧ b / 2 ≤ (eBot j).val ∧
      (eBot i).val - a / 2 < a / 2 ∧ (eBot j).val - b / 2 < b / 2 := by
    simp only [eBot]
    omega
  simp only [dupBlock, Matrix.of_apply, dif_neg h1, dif_pos h2]
  congr 1 <;> ext <;> (simp only [eBot]; omega)

lemma mirrored_reluVec {b : ℕ} {v : Fin b → ℝ} (hv : Mirrored b v) :
    Mirrored b (reluVec v) := by
  intro j hj
  exact congrArg relu (hv j hj)

lemma mirrored_vmatmul {a b : ℕ} (ha : a % 2 = 0)
    (B : Matrix (Fin (a / 2)) (Fin (b / 2)) ℝ) {x : Fin a → ℝ}
    (hx : Mirrored a x) : Mirrored b (vmatmul x (dupBlock a b B)) := by
  intro j hj
  show (∑ i, x i * dupBlock a b B i (eBot ⟨j, hj⟩))
      = ∑ i, x i * dupBlock a b B i (eTop ⟨j, hj⟩)
  rw [sum_halves a ha (fun i => x i * dupBlock a b B i (eBot ⟨j, hj⟩)),
    sum_halves a ha (fun i => x i * dupBlock a b B i (eTop ⟨j, hj⟩))]
  have e1 : ∀ i : Fin (a / 2),
      x (eTop i) * dupBlock a b B (eTop i) (eBot ⟨j, hj⟩) = 0 := by
    intro i
    rw [dupBlock_tb, mul_zero]
  have e2 : ∀ i : Fin (a / 2),
      x (eBot i) * dupBlock a b B (eBot i) (eBot ⟨j, hj⟩) =
        x (eTop i) * B i ⟨j, hj⟩ := by
    intro i
    rw [dupBlock_bb]
    have hxb : x (eBot i) = x (eTop i) := hx i.val i.2
    rw [hxb]
  have e3 : ∀ i : Fin (a / 2),
      x (eTop i) * dupBlock a b B (eTop i) (eTop ⟨j, hj⟩) =
        x (eTop i) * B i ⟨j, hj⟩ := by
    intro i
    rw [dupBlock_tt]
  have e4 : ∀ i : Fin (a / 2),
      x (eBot i) * dupBlock a b B (eBot i) (eTop ⟨j, hj⟩) = 0 := by
    intro i
    rw [dupBlock_bt, mul_zero]
  rw [Finset.sum_congr rfl (fun i _ => e1 i), Finset.sum_congr rfl (fun i _ => e2 i),
    Finset.sum_congr rfl (fun i _ => e3 i), Finset.sum_congr rfl (fun i _ => e4 i)]
  simp

lemma mirrored_midsFwd {d L m : ℕ} (hm : m % 2 = 0) (w : NNWeights d L m)
    (hw : ∀ i, ∃ B, w.Wmid i = dupBlock m m B) :
    ∀ (l : List (Fin (L - 2))) (h : Fin m → ℝ), Mirrored m h →
      Mirrored m (midsFwd w l h) := by
  intro l
  induction l with
  | nil => intro h hh; exact hh
  | cons i rest ih =>
    intro h hh
    obtain ⟨B, hB⟩ := hw i
    show Mirrored m (midsFwd w rest (reluVec (vmatmul h (w.Wmid i))))
    refine ih _ (mirrored_reluVec ?_)
    rw [hB]
    exact mirrored_vmatmul hm B hh

lemma mirrored_dot_dupColumn {b : ℕ} (hb : b % 2 = 0) (v : Fin (b / 2) → ℝ)
    {h : Fin b → ℝ} (hh : Mirrored b h) :
    ∑ j, h j * dupColumn b v j = 0 := by
  rw [sum_halves b hb (fun j => h j * dupColumn b v j)]
  have e1 : ∀ j : Fin (b / 2),
      h (eTop j) * dupColumn b v (eTop j) = h (eTop j) * v j := by
    intro j
    have hcol : dupColumn b v (eTop j) = v j := by
      simp only [dupColumn, eTop, dif_pos j.2]
    rw [hcol]
  have e2 : ∀ j : Fin (b / 2),
      h (eBot j) * dupColumn b v (eBot j) = -(h (eTop j) * v j) := by
    intro j
    have hj := j.2
    have h1 : ¬((eBot j).val < b / 2) := by
      simp only [eBot]
      omega
    have h2 : b / 2 ≤ (eBot j).val ∧ (eBot j).val - b / 2 < b / 2 := by
      simp only [eBot]
      omega
    have hcol : dupColumn b v (eBot j) = -v j := by
      simp only [dupColumn, dif_neg h1, dif_pos h2]
      congr 2
      ext
      simp [eBot]
    have hbv : h (eBot j) = h (eTop j) := hh j.val j.2
    rw [hcol, hbv]
    ring
  rw [Finset.sum_congr rfl (fun j _ => e1 j), Finset.sum_congr rfl (fun j _ => e2 j)]
  simp

/-- Claim C1, amended: at the initial parameters produced by the
antisymmetric construction, `forward` returns exactly `0` for every
input whose bottom half repeats its top half (`x[i + d/2] = x[i]`, the
duplicated-context form assumed by the construction) — for every even
`d` and `m`, every depth, and every initialisation draw. -/
theorem claimC1_amended (d L m : ℕ) (hd : d % 2 = 0) (hm : m % 2 = 0)
    (dr : Draws d m) (x : Fin d → ℝ) (hx : Mirrored d x) :
    forwardRow (initWeights d L m dr) x = 0 := by
  have hW1 : Mirrored m (reluVec (vmatmul x (initWeights d L m dr).W1)) :=
    mirrored_reluVec (mirrored_vmatmul hd _ hx)
  have hmid : Mirrored m (hiddenOut (initWeights d L m dr) x) := by
    unfold hiddenOut
    exact mirrored_midsFwd hm _ (fun i => ⟨_, rfl⟩) _ _ hW1
  unfold forwardRow
  rw [show (initWeights d L m dr).WL =
      dupColumn m (fun j => Real.sqrt (2 / (m : ℝ)) * dr.wL j) from rfl]
  rw [mirrored_dot_dupColumn hm _ hmid, zero_mul]

/-- Concrete unit initialisation draws for `d = m = 2`. -/
def drOne : Draws 2 2 :=
  ⟨Matrix.of fun _ _ => 1, Matrix.of fun _ _ => 1, fun _ => 1⟩

/-- Claim C1, as stated, fails on the code: the initial network is not
zero on arbitrary inputs of length `d`.  With `d = L = m = 2` and unit
draws, the input `(1, 0)` (whose halves differ) evaluates to
`√2 · √2 = 2 ≠ 0`. -/
theorem claimC1_cex :
    forwardRow (initWeights 2 2 2 drOne) ![1, 0] ≠ 0 := by
  have hs2 : Real.sqrt ((4 : ℝ) / ((2 : ℕ) : ℝ)) = Real.sqrt 2 := by
    norm_num
  have hv : forwardRow (initWeights 2 2 2 drOne) ![1, 0] = 2 := by
    simp only [forwardRow, hiddenOut, initWeights, drOne]
    norm_num [midsFwd, reluVec, relu, vmatmul, dupBlock, dupColumn,
      Fin.sum_univ_two, Matrix.of_apply, Matrix.cons_val_zero,
      Matrix.cons_val_one, Matrix.head_cons]
  rw [hv]
  norm_num

lemma mirrored_ones : Mirrored 2 ![(1 : ℝ), 1] := by
  intro j h
  have hj : j = 0 := by omega
  subst hj
  rfl

/-- Witness for the amended C1: with `d = L = m = 2`, unit draws and
the duplicated-halves input `(1, 1)`, the initial network evaluates to
exactly `0`. -/
theorem claimC1_witness :
    (2 % 2 = 0) ∧ Mirrored 2 ![(1 : ℝ), 1] ∧
      forwardRow (initWeights 2 2 2 drOne) ![1, 1] = 0 :=
  ⟨rfl, mirrored_ones, claimC1_amended 2 2 2 rfl rfl drOne ![1, 1] mirrored_ones⟩

end BlueBandits
